import Mathlib

/-!
Verification of the builtin-function layer of the rune Emacs-Lisp runtime
(`src/fns.rs`, `src/search.rs`) against its natural-language specification.

The Rust code is shallowly embedded: Lisp tagged values become the inductive
`Rune.Obj` (restricted to the variants the verified builtins inspect), Lisp
proper lists become `List Obj`, the insertion-ordered hash table with its
iteration cursor becomes `Rune.HTable`, and fallible builtins return
`Except String _`.  External collaborators (the `fancy_regex` engine and the
standard library's stable comparison sort) are modelled at their interface,
as the spec directs.  Loops whose termination is not structural are given an
explicit fuel parameter; every theorem about them either holds for all fuel
or is stated with fuel at least the bound the loop needs, so with sufficient
fuel the model computes exactly what the Rust loop computes.
-/

namespace Rune

/-- Tagged Lisp value, restricted to the variants that the verified builtins
inspect: Nil, integers, symbols and strings.  Structural equality (`equal`)
on this fragment is the derived decidable equality. -/
inductive Obj where
  | nil
  | int (n : Int)
  | sym (s : String)
  | str (s : String)
deriving DecidableEq, Repr

/-- Embedding of `lisp_regex_to_rust` (search.rs:91-124) on the character
list of the input.  The escaping of `(`, `)` and braces is inverted, `\x60`
(backquote) escape becomes `\A`, `\'` becomes `\z`, a `[:word:]` bracket
class becomes `a-zA-Z`, any other escape passes through, and a trailing
backslash is pushed as-is.  The `[:word:]` test, `starts_with` at the
current index in Rust, is the literal eight-character pattern here. -/
def lisp_regex_to_rust : List Char → List Char
  | [] => []
  | '(' :: rest => '\\' :: '(' :: lisp_regex_to_rust rest
  | ')' :: rest => '\\' :: ')' :: lisp_regex_to_rust rest
  | '\x7b' :: rest => '\\' :: '\x7b' :: lisp_regex_to_rust rest
  | '\x7d' :: rest => '\\' :: '\x7d' :: lisp_regex_to_rust rest
  | '\\' :: c :: rest =>
      if c = '(' ∨ c = ')' ∨ c = '\x7b' ∨ c = '\x7d' then
        c :: lisp_regex_to_rust rest
      else if c = '\x60' then
        '\\' :: 'A' :: lisp_regex_to_rust rest
      else if c = '\x27' then
        '\\' :: 'z' :: lisp_regex_to_rust rest
      else
        '\\' :: c :: lisp_regex_to_rust rest
  | ['\\'] => ['\\']
  | '[' :: ':' :: 'w' :: 'o' :: 'r' :: 'd' :: ':' :: ']' :: rest =>
      'a' :: '-' :: 'z' :: 'A' :: '-' :: 'Z' :: lisp_regex_to_rust rest
  | c :: rest => c :: lisp_regex_to_rust rest

/-- Embedding of `string_match` (search.rs:13-42).  The compiled host regex
(`fancy_regex`, an external collaborator) is abstracted by its answer
`caps`: `none` when `re.captures_iter(&string[start..]).next()` finds no
match, otherwise the per-group optional byte ranges of the first match,
group 0 first, measured relative to the slice `&string[start..]`.  On a
match the code walks the groups with `while let Some(Some(group))`, pushing
start/end of each group until the first absent group, stores that flat list
as the new match data and returns its head (`head.car()`); on no match it
returns Nil and leaves the match data `md` untouched. -/
def string_match (caps : Option (List (Option (Nat × Nat)))) (md : List Obj) :
    Obj × List Obj :=
  match caps with
  | none => (Obj.nil, md)
  | some groups =>
      let all := (groups.takeWhile Option.isSome).foldr
        (fun g acc =>
          match g with
          | some (s, e) => Obj.int s :: Obj.int e :: acc
          | none => acc) []
      (all.headD Obj.nil, all)

/-- Embedding of `match_beginning` (search.rs:148-152): element `subexp` of
the match-data list, Nil when absent (`nth(subexp)?.unwrap_or_default()`). -/
def match_beginning (subexp : Nat) (md : List Obj) : Obj :=
  (md.get? subexp).getD Obj.nil

/-- Embedding of `match_end` (search.rs:154-158): element `subexp + 1` of
the match-data list, Nil when absent. -/
def match_end (subexp : Nat) (md : List Obj) : Obj :=
  (md.get? (subexp + 1)).getD Obj.nil

/-- Embedding of `match_data__translate` (search.rs:160-173).  The Rust
code walks the match-data cons chain, replacing each integer car by the
integer plus `n`; at the first non-integer car it bails with an error,
leaving the cells already rewritten in their updated state.  The returned
list is the state of the chain when the function returns. -/
def match_data__translate (n : Int) : List Obj → Except String Unit × List Obj
  | [] => (Except.ok (), [])
  | Obj.int m :: rest =>
      let (res, rest') := match_data__translate n rest
      (res, Obj.int (m + n) :: rest')
  | x :: rest => (Except.error "match data was not int", x :: rest)

/-- Associative table (fns.rs `LispHashTable` as the builtins use it):
an insertion-ordered list of key/value entries — every live entry has a
dense index — together with the table-owned iteration cursor read and
written by `maphash` and `remhash`.  Keys are compared with structural
equality, matching the `equal`-based table the code constructs. -/
structure HTable where
  entries : List (Obj × Obj)
  cursor : Nat
deriving DecidableEq, Repr

/-- Embedding of `remhash` (fns.rs:886-899).  `get_index_of` is the dense
index of the key; an absent key is a no-op.  When the removed index is
strictly before the stored iteration cursor the cursor is decremented by
one; then the entry is removed order-preservingly (`shift_remove`). -/
def remhash (k : Obj) (t : HTable) : HTable :=
  match t.entries.findIdx? (fun e => e.1 == k) with
  | none => t
  | some idx =>
      { entries := t.entries.eraseIdx idx
        cursor := if idx < t.cursor then t.cursor - 1 else t.cursor }

/-- Instrumented `remhash`: the same state transition as `remhash`, also
reporting the removed entry when it sat at or after the cursor, i.e. when
it had not yet been visited by the traversal in progress.
`remhashG_fst` proves the table component agrees with `remhash`. -/
def remhashG (k : Obj) (t : HTable) : HTable × Option (Obj × Obj) :=
  match t.entries.findIdx? (fun e => e.1 == k) with
  | none => (t, none)
  | some idx =>
      ({ entries := t.entries.eraseIdx idx
         cursor := if idx < t.cursor then t.cursor - 1 else t.cursor },
       if idx < t.cursor then none else t.entries.get? idx)

/-- Folds a sequence of `remhash` calls over the table, accumulating the
entries that were removed while not yet visited (ghost data for the
iteration-cursor invariant). -/
def remhashList : List Obj → HTable → List (Obj × Obj) →
    HTable × List (Obj × Obj)
  | [], t, r => (t, r)
  | k :: ks, t, r =>
      let (t', e?) := remhashG k t
      remhashList ks t' (r ++ e?.toList)

/-- Embedding of the `loop_idx` closure of `maphash` (fns.rs:908-913):
reads the cursor, unconditionally advances it by one, and yields the read
index if it was below the table's length. -/
def loop_idx (t : HTable) : Option Nat × HTable :=
  let e := t.entries.length
  let idx := t.cursor
  (if idx ≥ e then none else some idx, { t with cursor := idx + 1 })

/-- Embedding of the `maphash` loop (fns.rs:901-929).  Each iteration runs
`loop_idx`; at the yielded index the entry is read and the callback is
invoked on it; the callback's effect on the table is a sequence of
`remhash` calls (its result), and a callback error resets the cursor to 0
and propagates.  When `loop_idx` yields nothing the cursor is reset to 0
and `false` is returned.  `fuel` bounds the number of iterations (`none`
means the bound was too small — `runMaphash_inv` shows
`entries.length + 1` always suffices); `v` accumulates the entries the
callback was invoked on and `r` the ghost removed-unvisited entries of
`remhashList`. -/
def runMaphash (f : Nat → Obj × Obj → Except String (List Obj)) :
    Nat → Nat → HTable → List (Obj × Obj) → List (Obj × Obj) →
    Option (Except String Bool × HTable × List (Obj × Obj) × List (Obj × Obj))
  | 0, _, _, _, _ => none
  | fuel + 1, i, t, v, r =>
      let (oidx, t1) := loop_idx t
      match oidx with
      | none => some (Except.ok false, { t1 with cursor := 0 }, v, r)
      | some idx =>
          match t1.entries.get? idx with
          | none => none
          | some kv =>
              match f i kv with
              | Except.error e =>
                  some (Except.error e, { t1 with cursor := 0 }, v ++ [kv], r)
              | Except.ok ks =>
                  let (t2, r2) := remhashList ks t1 r
                  runMaphash f fuel (i + 1) t2 (v ++ [kv]) r2

/-- Embedding of `substring` (fns.rs:954-969) on the character list of the
string (the Rust code slices by byte index; on the inputs considered here
the unit plays no role).  A given bound beyond the length is an error;
with both bounds given and `from > to` the code swaps the bounds and
returns the slice `to..from`. -/
def substring (s : List Char) (f? t? : Option Nat) : Except String (List Char) :=
  if (f?.getD 0) > s.length ∨ (t?.getD 0) > s.length then
    Except.error "substring args out of range"
  else
    Except.ok (match f?, t? with
      | none, none => s
      | none, some t => s.take t
      | some f, none => s.drop f
      | some f, some t =>
          if f > t then (s.drop t).take (f - t) else (s.drop f).take (t - f))

/-- Rust `x as usize` on an `i64`, as used by `compare_strings` on the
start offsets and lengths: reduction modulo 2^64. -/
def usizeOf (x : Int) : Nat := (x % (2 : Int) ^ 64).toNat

/-- Comparison loop of `compare_strings` (fns.rs:691-708): walks the two
character ranges in lockstep counting `leading` from 1, optionally
upper-casing both sides, and answers `-leading`/`leading` at the first
difference, or the symbol `t` when one range is exhausted. -/
def compare_strings_loop (ic : Bool) : List (Char × Char) → Int → Obj
  | [], _ => Obj.sym "t"
  | (c1, c2) :: rest, leading =>
      let p := if ic then (c1.toUpper, c2.toUpper) else (c1, c2)
      if p.1 < p.2 then Obj.int (-leading)
      else if p.2 < p.1 then Obj.int leading
      else compare_strings_loop ic rest (leading + 1)

/-- Bound argument of `compare_strings`: an integer, or Nil meaning the
given default (0 for a start, the character count for an end); any other
value is a type error (the four inline `match ... bail!` blocks of
fns.rs:657-666 and 674-683). -/
def intArg (x : Obj) (dflt : Int) : Except String Int :=
  match x with
  | Obj.int n => Except.ok n
  | Obj.nil => Except.ok dflt
  | _ => Except.error "TypeError expected int"

/-- Embedding of `compare_strings` (fns.rs:647-709).  The first string's
bounds are resolved and checked — `end < start` is an immediate range
error — then the second string's, then the two
`skip(start as usize).take((end - start) as usize)` character ranges are
compared by `compare_strings_loop`. -/
def compare_strings (s1 : List Char) (start1 end1 : Obj)
    (s2 : List Char) (start2 end2 : Obj) (ignore_case : Bool) :
    Except String Obj :=
  match intArg start1 0 with
  | Except.error e => Except.error e
  | Except.ok st1 =>
      match intArg end1 (s1.length : Int) with
      | Except.error e => Except.error e
      | Except.ok en1 =>
          if en1 < st1 then Except.error "Args out of range"
          else
            let r1 := (s1.drop (usizeOf st1)).take (usizeOf (en1 - st1))
            match intArg start2 0 with
            | Except.error e => Except.error e
            | Except.ok st2 =>
                match intArg end2 (s2.length : Int) with
                | Except.error e => Except.error e
                | Except.ok en2 =>
                    if en2 < st2 then Except.error "Args out of range"
                    else
                      let r2 := (s2.drop (usizeOf st2)).take (usizeOf (en2 - st2))
                      Except.ok (compare_strings_loop ignore_case (r1.zip r2) 1)

/-- Embedding of the comparator closure of `sort` (fns.rs:463-479).  The
state is the captured error cell `err`: once it holds an error, every
later comparison answers `Equal` without consulting the predicate and the
cell is unchanged; otherwise the predicate is invoked — Nil means the
first argument does not sort before the second (`Greater`), any other
value means it does (`Less`), and an error is captured into the cell with
`Equal` as the answer. -/
def sortCmp (pred : Obj → Obj → Except String Obj) (s : Option String)
    (a b : Obj) : Ordering × Option String :=
  match s with
  | some e => (Ordering.eq, some e)
  | none =>
      match pred a b with
      | Except.ok x => (if x = Obj.nil then Ordering.gt else Ordering.lt, none)
      | Except.error e => (Ordering.eq, some e)

/-- Modelled from the spec: the standard library's stable comparison sort
(`slice::sort_by`, an external collaborator of fns.rs `sort`), as a stable
top-down merge: the left element is taken whenever the comparator does not
answer `Greater`.  The comparator threads the closure state (the captured
error cell).  `fuel` bounds the recursion; `mergeS` called with
`xs.length + ys.length` never exhausts it. -/
def mergeS {α σ : Type} (cmp : σ → α → α → Ordering × σ) :
    Nat → σ → List α → List α → List α × σ
  | _, s, [], ys => (ys, s)
  | _, s, x :: xs, [] => (x :: xs, s)
  | 0, s, xs, ys => (xs ++ ys, s)
  | fuel + 1, s, x :: xs, y :: ys =>
      let (o, s') := cmp s x y
      if o = Ordering.gt then
        let (res, s'') := mergeS cmp fuel s' (x :: xs) ys
        (y :: res, s'')
      else
        let (res, s'') := mergeS cmp fuel s' xs (y :: ys)
        (x :: res, s'')

/-- Modelled from the spec: top-down stable merge sort threading the
comparator state, standing for `slice::sort_by`.  `fuel` bounds the
recursion depth; `fuel ≥ l.length` always suffices (`msortS_sorted`
assumes it, `msortS_perm` holds regardless). -/
def msortS {α σ : Type} (cmp : σ → α → α → Ordering × σ) :
    Nat → σ → List α → List α × σ
  | _, s, [] => ([], s)
  | _, s, [x] => ([x], s)
  | 0, s, l => (l, s)
  | fuel + 1, s, l =>
      let n := l.length / 2
      let (ls, s1) := msortS cmp fuel s (l.take n)
      let (rs, s2) := msortS cmp fuel s1 (l.drop n)
      mergeS cmp (ls.length + rs.length) s2 ls rs

/-- Embedding of `sort` (fns.rs:449-484).  The elements of the (proper)
list are collected; with at most one element the original list is returned
unsorted.  Otherwise the buffer is sorted by the stateful comparator
`sortCmp pred` starting from an empty error cell; after the sort pass
completes, a captured error is surfaced instead of the result. -/
def sort (l : List Obj) (pred : Obj → Obj → Except String Obj) :
    Except String (List Obj) :=
  if l.length ≤ 1 then Except.ok l
  else
    match msortS (sortCmp pred) l.length none l with
    | (_, some e) => Except.error e
    | (out, none) => Except.ok out

/-! Helper lemmas about list index manipulation, used by the hash-table
cursor proofs. -/

theorem eraseIdx_take_of_ge {α : Type} (l : List α) (idx c : Nat) (h : c ≤ idx) :
    (l.eraseIdx idx).take c = l.take c := by
  induction l generalizing idx c with
  | nil => simp [List.eraseIdx]
  | cons a l ih =>
      cases c with
      | zero => simp
      | succ c' =>
          cases idx with
          | zero => omega
          | succ i => simp [List.eraseIdx, ih l.length, ih i c' (by omega)]

theorem eraseIdx_drop_of_ge {α : Type} (l : List α) (idx c : Nat) (h : c ≤ idx) :
    (l.eraseIdx idx).drop c = (l.drop c).eraseIdx (idx - c) := by
  induction l generalizing idx c with
  | nil => simp [List.eraseIdx]
  | cons a l ih =>
      cases c with
      | zero => simp
      | succ c' =>
          cases idx with
          | zero => omega
          | succ i =>
              have hsub : i + 1 - (c' + 1) = i - c' := by omega
              simp [List.eraseIdx, hsub, ih i c' (by omega)]

theorem eraseIdx_take_of_lt {α : Type} (l : List α) (idx c : Nat) (h : idx < c) :
    (l.eraseIdx idx).take (c - 1) = (l.take c).eraseIdx idx := by
  induction l generalizing idx c with
  | nil => simp [List.eraseIdx]
  | cons a l ih =>
      cases c with
      | zero => omega
      | succ c' =>
          cases idx with
          | zero => simp [List.eraseIdx]
          | succ i =>
              cases c' with
              | zero => omega
              | succ c'' =>
                  have h2 := ih i (c'' + 1) (by omega)
                  simp only [Nat.add_sub_cancel] at h2
                  simp only [List.eraseIdx, Nat.succ_sub_one, List.take_succ_cons]
                  rw [h2]

theorem eraseIdx_drop_of_lt {α : Type} (l : List α) (idx c : Nat) (h : idx < c) :
    (l.eraseIdx idx).drop (c - 1) = l.drop c := by
  induction l generalizing idx c with
  | nil => simp [List.eraseIdx]
  | cons a l ih =>
      cases c with
      | zero => omega
      | succ c' =>
          cases idx with
          | zero => simp [List.eraseIdx]
          | succ i =>
              cases c' with
              | zero => omega
              | succ c'' =>
                  have h2 := ih i (c'' + 1) (by omega)
                  simp only [Nat.add_sub_cancel] at h2
                  simp only [List.eraseIdx, Nat.succ_sub_one, List.drop_succ_cons]
                  rw [h2]

theorem perm_getElem_cons_eraseIdx {α : Type} (l : List α) (i : Nat)
    (h : i < l.length) : l.Perm (l[i] :: l.eraseIdx i) := by
  induction l generalizing i with
  | nil => simp at h
  | cons a l ih =>
      cases i with
      | zero => simp [List.eraseIdx]
      | succ j =>
          have hj : j < l.length := by simpa using h
          have h1 : (a :: l).Perm (a :: l[j] :: l.eraseIdx j) := (ih j hj).cons a
          have h2 : (a :: l[j] :: l.eraseIdx j).Perm (l[j] :: a :: l.eraseIdx j) :=
            List.Perm.swap _ _ _
          have h3 : (a :: l)[j + 1] = l[j] := by simp
          have h4 : (a :: l).eraseIdx (j + 1) = a :: l.eraseIdx j := by
            simp [List.eraseIdx]
          rw [h3, h4]
          exact h1.trans h2

/-- C1 (code bug): `string_match` does not produce the match data the spec
describes.  First conjunct: searching for `bar` in `xbar` from start
offset 1, the host engine reports the whole-match range (0, 3) relative to
the slice `bar`; the code returns 0 and stores (0 3) — but the match
starts at offset 1 of the subject, so neither the return value nor the
stored offsets are measured into the subject text.  Second conjunct: with
an absent middle capture group (groups `some (0,1), none, some (2,3)`),
the `while let Some(Some(group))` walk stops at the first absent group:
the stored list is (0 1), with no Nil pair for the absent group and
nothing at all for the later present group.  Third conjunct: the no-match
branch does return Nil and leave the match data unchanged. -/
theorem string_match_bug :
    string_match (some [some (0, 3)]) [Obj.int 9] = (Obj.int 0, [Obj.int 0, Obj.int 3])
    ∧ Obj.int 0 ≠ Obj.int 1
    ∧ string_match (some [some (0, 1), none, some (2, 3)]) []
        = (Obj.int 0, [Obj.int 0, Obj.int 1])
    ∧ (∀ md : List Obj, string_match none md = (Obj.nil, md)) := by
  refine ⟨rfl, by decide, rfl, fun md => rfl⟩

/-- C2 (code bug): with match data (0 5 1 3) — group 0 spanning 0..5 and
group 1 spanning 1..3 — `match_beginning 1` returns element 1 of the list
(the END of group 0, 5) instead of element 2·1 = 2 (the start of group 1,
1), and `match_end 1` returns element 2 (1) instead of element 2·1+1 = 3
(the end of group 1, 3).  The code indexes the flat list at `n`/`n+1`
where the layout it itself produces (string_match, and replace_match's
`subexp * 2` skip) requires `2n`/`2n+1`. -/
theorem match_accessors_bug :
    match_beginning 1 [Obj.int 0, Obj.int 5, Obj.int 1, Obj.int 3] = Obj.int 5
    ∧ match_end 1 [Obj.int 0, Obj.int 5, Obj.int 1, Obj.int 3] = Obj.int 1
    ∧ ([Obj.int 0, Obj.int 5, Obj.int 1, Obj.int 3].get? 2 = some (Obj.int 1)
        ∧ [Obj.int 0, Obj.int 5, Obj.int 1, Obj.int 3].get? 3 = some (Obj.int 3))
    ∧ Obj.int 5 ≠ Obj.int 1 ∧ Obj.int 1 ≠ Obj.int 3 := by
  refine ⟨rfl, rfl, ⟨rfl, rfl⟩, by decide, by decide⟩

/-- C3 counterexample: the claim says `remhash` decrements the cursor
whenever the removed index is at or BEFORE the cursor (`i ≤ c`).  Take a
table with entries for keys 1 and 2 and cursor 1, and remove key 2, whose
dense index is 1 = cursor.  The code's strict test `idx < iter_idx` does
not fire: the cursor stays 1, it is not decremented to 0 as the claim
requires. -/
theorem remhash_cursor_at_counterexample :
    (HTable.mk [(Obj.int 1, Obj.nil), (Obj.int 2, Obj.nil)] 1).entries.findIdx?
        (fun e => e.1 == Obj.int 2) = some 1
    ∧ (1 : Nat) ≤ (HTable.mk [(Obj.int 1, Obj.nil), (Obj.int 2, Obj.nil)] 1).cursor
    ∧ (remhash (Obj.int 2) (HTable.mk [(Obj.int 1, Obj.nil), (Obj.int 2, Obj.nil)] 1)).cursor = 1
    ∧ (remhash (Obj.int 2) (HTable.mk [(Obj.int 1, Obj.nil), (Obj.int 2, Obj.nil)] 1)).cursor
        ≠ 1 - 1 := by
  refine ⟨by decide, by decide, by decide, by decide⟩

/-- C3 amended: `remhash` on a key present at dense index `idx` decrements
the cursor by one exactly when `idx` is STRICTLY before the stored cursor
(`idx < c`, not `idx ≤ c`), leaves it unchanged otherwise, and removes the
entry order-preservingly: the resulting entry list is the old one with
index `idx` erased, and (keys being unique in a table) the key is no
longer present. -/
theorem remhash_cursor_spec (k : Obj) (t : HTable) (idx : Nat)
    (hidx : t.entries.findIdx? (fun e => e.1 == k) = some idx)
    (hnd : (t.entries.map Prod.fst).Nodup) :
    (remhash k t).cursor = (if idx < t.cursor then t.cursor - 1 else t.cursor)
    ∧ (remhash k t).entries = t.entries.eraseIdx idx
    ∧ k ∉ (remhash k t).entries.map Prod.fst := by
  obtain ⟨hlt, hp, -⟩ := List.findIdx?_eq_some_iff_getElem.mp hidx
  have hk : (t.entries[idx]).1 = k := by
    simpa using hp
  refine ⟨by simp [remhash, hidx], by simp [remhash, hidx], ?_⟩
  simp only [remhash, hidx]
  intro hmem
  have hsplit : t.entries = t.entries.take idx ++ t.entries[idx] :: t.entries.drop (idx + 1) := by
    rw [List.getElem_cons_drop, List.take_append_drop]
  have hnd' : ((t.entries.take idx ++ t.entries[idx] :: t.entries.drop (idx + 1)).map
      Prod.fst).Nodup := by
    rw [← hsplit]; exact hnd
  rw [List.map_append, List.map_cons, List.nodup_append] at hnd'
  obtain ⟨-, hnd2, hdisj⟩ := hnd'
  rw [List.eraseIdx_eq_take_drop_succ, List.map_append, List.mem_append] at hmem
  rcases hmem with hmem | hmem
  · exact hdisj hmem (by rw [hk]; exact List.mem_cons_self _ _)
  · rw [List.nodup_cons] at hnd2
    exact hnd2.1 (by rw [hk]; exact hmem)

/-- Witness for `remhash_cursor_spec`: removing key 1 at index 0 from a
two-entry table whose cursor is 2 decrements the cursor to 1 and leaves
only key 2. -/
theorem remhash_cursor_spec_witness :
    (remhash (Obj.int 1) (HTable.mk [(Obj.int 1, Obj.nil), (Obj.int 2, Obj.nil)] 2)).cursor = 1
    ∧ Obj.int 1 ∉ ((remhash (Obj.int 1)
        (HTable.mk [(Obj.int 1, Obj.nil), (Obj.int 2, Obj.nil)] 2)).entries.map Prod.fst) := by
  have h := remhash_cursor_spec (Obj.int 1)
    (HTable.mk [(Obj.int 1, Obj.nil), (Obj.int 2, Obj.nil)] 2) 0 (by decide) (by decide)
  exact ⟨by rw [h.1]; decide, h.2.2⟩

/-- C10: `match_data__translate n` on a match-data list whose first
non-integer entry is `x` (after a prefix of integer entries `pre`) returns
an error, but by the time the error is returned every integer entry of the
prefix has already been incremented by `n` in place; when `n ≠ 0` and the
prefix is non-empty the match data observed after the failed call differs
from the original — the operation is not atomic on error. -/
theorem match_data_translate_nonatomic (n : Int) (pre : List Int) (x : Obj)
    (suf : List Obj) (hx : ∀ m : Int, x ≠ Obj.int m) :
    match_data__translate n (pre.map Obj.int ++ x :: suf)
      = (Except.error "match data was not int",
         pre.map (fun m => Obj.int (m + n)) ++ x :: suf)
    ∧ (n ≠ 0 → pre ≠ [] →
        (match_data__translate n (pre.map Obj.int ++ x :: suf)).2
          ≠ pre.map Obj.int ++ x :: suf) := by
  have key : match_data__translate n (pre.map Obj.int ++ x :: suf)
      = (Except.error "match data was not int",
         pre.map (fun m => Obj.int (m + n)) ++ x :: suf) := by
    induction pre with
    | nil =>
        cases x with
        | nil => simp [match_data__translate]
        | int m => exact absurd rfl (hx m)
        | sym s => simp [match_data__translate]
        | str s => simp [match_data__translate]
    | cons m pre ih =>
        simp only [List.map_cons, List.cons_append, match_data__translate,
          List.append_eq] at ih ⊢
        rw [ih]
  refine ⟨key, fun hn hpre => ?_⟩
  rw [key]
  cases pre with
  | nil => exact absurd rfl hpre
  | cons m pre =>
      simp only [List.map_cons, List.cons_append, ne_eq, List.cons.injEq, not_and,
        Obj.int.injEq]
      intro hhead
      omega

/-- Witness for `match_data_translate_nonatomic`: translating (0 3 x 5) by 2
errors out yet leaves the data as (2 5 x 5). -/
theorem match_data_translate_nonatomic_witness :
    match_data__translate 2 ([(0 : Int), 3].map Obj.int ++ Obj.sym "x" :: [Obj.int 5])
      = (Except.error "match data was not int",
         [(0 : Int), 3].map (fun m => Obj.int (m + 2)) ++ Obj.sym "x" :: [Obj.int 5]) :=
  (match_data_translate_nonatomic 2 [0, 3] (Obj.sym "x") [Obj.int 5]
    (fun m h => Obj.noConfusion h)).1

/-- C7: whatever the callback does, `maphash` leaves the table's iteration
cursor at 0: the loop resets the cursor to 0 both on normal completion and
on a callback error before propagating it, so any completed `runMaphash`
ends with cursor 0. -/
theorem maphash_resets_cursor (f : Nat → Obj × Obj → Except String (List Obj))
    (fuel i : Nat) (t : HTable) (v r : List (Obj × Obj))
    (out : Except String Bool × HTable × List (Obj × Obj) × List (Obj × Obj))
    (h : runMaphash f fuel i t v r = some out) :
    out.2.1.cursor = 0 := by
  induction fuel generalizing i t v r with
  | zero => exact absurd h (by simp [runMaphash])
  | succ fuel ih =>
      simp only [runMaphash, loop_idx] at h
      split at h
      · cases h
        rfl
      · split at h
        · cases h
        · split at h
          · cases h
            rfl
          · exact ih _ _ _ _ h

/-- Witness for `maphash_resets_cursor`: a one-entry table whose callback
errors; the run ends with the error propagated and the cursor reset to 0. -/
theorem maphash_resets_cursor_witness :
    runMaphash (fun _ _ => Except.error "cb") 2 0 (HTable.mk [(Obj.nil, Obj.nil)] 0) [] []
      = some (Except.error "cb", HTable.mk [(Obj.nil, Obj.nil)] 0, [(Obj.nil, Obj.nil)], [])
    ∧ ((Except.error "cb" : Except String Bool), HTable.mk [(Obj.nil, Obj.nil)] 0,
        [(Obj.nil, Obj.nil)], ([] : List (Obj × Obj))).2.1.cursor = 0 :=
  ⟨rfl, maphash_resets_cursor (fun _ _ => Except.error "cb") 2 0
    (HTable.mk [(Obj.nil, Obj.nil)] 0) [] [] _ rfl⟩

/-- C9 counterexample: the claim says `substring` raises a domain error
when the given end precedes the given start; instead
`substring("hello", 3, 1)` succeeds, returning the swapped-range slice
`"el"`. -/
theorem substring_reversed_range_counterexample :
    substring "hello".toList (some 3) (some 1) = Except.ok "el".toList
    ∧ (substring "hello".toList (some 3) (some 1)).isOk = true :=
  ⟨rfl, rfl⟩

/-- C9 amended: `compare_strings` raises its range error immediately when
a requested end precedes the corresponding start (for either string, the
second being checked after the first passes), aborting before any
comparison; `substring`, however, does not raise on a reversed
well-formed range — it swaps the bounds and returns the slice of the
swapped range. -/
theorem range_error_spec :
    (∀ (s1 s2 : List Char) (m n : Int) (st2 en2 : Obj) (ic : Bool), n < m →
      compare_strings s1 (Obj.int m) (Obj.int n) s2 st2 en2 ic
        = Except.error "Args out of range")
    ∧ (∀ (s1 s2 : List Char) (m1 n1 m2 n2 : Int) (ic : Bool), m1 ≤ n1 → n2 < m2 →
      compare_strings s1 (Obj.int m1) (Obj.int n1) s2 (Obj.int m2) (Obj.int n2) ic
        = Except.error "Args out of range")
    ∧ (∀ (s : List Char) (f t : Nat), f ≤ s.length → t ≤ s.length → t < f →
      substring s (some f) (some t) = Except.ok ((s.drop t).take (f - t))) := by
  refine ⟨?_, ?_, ?_⟩
  · intro s1 s2 m n st2 en2 ic hnm
    simp [compare_strings, intArg, if_pos hnm]
  · intro s1 s2 m1 n1 m2 n2 ic h1 h2
    simp [compare_strings, intArg, if_neg (not_lt.mpr h1), if_pos h2]
  · intro s f t hf ht htf
    have hcond : ¬ ((some f).getD 0 > s.length ∨ (some t).getD 0 > s.length) := by
      simp only [Option.getD_some]
      omega
    simp [substring, hcond, if_pos htf]
    omega

/-- Witness for `range_error_spec`: both reversed `compare-strings` ranges
error out, and the reversed `substring` range returns the swapped slice. -/
theorem range_error_spec_witness :
    compare_strings ['a'] (Obj.int 3) (Obj.int 1) ['b'] Obj.nil Obj.nil false
      = Except.error "Args out of range"
    ∧ compare_strings ['a'] (Obj.int 0) (Obj.int 1) ['b'] (Obj.int 5) (Obj.int 2) true
      = Except.error "Args out of range"
    ∧ substring "hello".toList (some 3) (some 1)
      = Except.ok ((("hello".toList).drop 1).take (3 - 1)) :=
  ⟨range_error_spec.1 ['a'] ['b'] 3 1 Obj.nil Obj.nil false (by norm_num),
   range_error_spec.2.1 ['a'] ['b'] 0 1 5 2 true (by norm_num) (by norm_num),
   range_error_spec.2.2 "hello".toList 3 1 (by decide) (by decide) (by decide)⟩

/-- Helper for the regex-translation claim: if a character list does not
start with the `[:word:]` tail, appending a single non-`]` character to it
cannot make it start with that tail. -/
theorem word_prefix_append_single (rest : List Char) (b : Char) (hb : b ≠ ']')
    (h : ∀ r1 : List Char, rest ≠ ':' :: 'w' :: 'o' :: 'r' :: 'd' :: ':' :: ']' :: r1) :
    ∀ r1 : List Char, rest ++ [b] ≠ ':' :: 'w' :: 'o' :: 'r' :: 'd' :: ':' :: ']' :: r1 := by
  intro r1 heq
  have hlen : rest.length + 1 = 7 + r1.length := by
    have h0 := congrArg List.length heq
    simp at h0
    omega
  rcases Nat.lt_or_ge rest.length 7 with hlt | hge
  · have h6 : rest.length = 6 := by omega
    have h1 : (rest ++ [b]).get? 6 = some b := by
      rw [List.get?_eq_getElem?, List.getElem?_append_right (by omega)]
      simp [h6]
    have h2 : (rest ++ [b]).get? 6 = some ']' := by rw [heq]; rfl
    rw [h1] at h2
    exact hb (Option.some.inj h2)
  · have h7 : (rest ++ [b]).take 7 = rest.take 7 := List.take_append_of_le_length hge
    have h8 : rest.take 7 = [':', 'w', 'o', 'r', 'd', ':', ']'] := by
      rw [← h7, heq]
      rfl
    have h9 : rest = [':', 'w', 'o', 'r', 'd', ':', ']'] ++ rest.drop 7 := by
      conv_lhs => rw [← List.take_append_drop 7 rest]
      rw [h8]
    exact h (rest.drop 7) (by simpa using h9)

set_option maxHeartbeats 4000000 in
/-- Helper for the regex-translation claim: a backslash appended at the end
of any pattern comes out of the translation as a literal trailing
backslash (it either hits the trailing-backslash arm, or is escaped by a
preceding backslash and passed through unchanged). -/
theorem lisp_regex_trailing_backslash (cs : List Char) :
    lisp_regex_to_rust (cs ++ ['\\']) = lisp_regex_to_rust cs ++ ['\\'] := by
  induction cs using lisp_regex_to_rust.induct <;>
    first
      | rfl
      | (simp only [List.cons_append, List.nil_append, lisp_regex_to_rust]; simp_all)
      | skip
  rename_i c rest hp1 hp2 hb1 hb2 hbs hbsnil hword ih
  have hc : c ≠ '\\' := by
    intro hcc
    cases rest with
    | nil => exact hbsnil hcc rfl
    | cons d r => exact hbs d r hcc rfl
  rw [lisp_regex_to_rust.eq_def]
  split
  · simp_all
  · simp_all
  · simp_all
  · simp_all
  · simp_all
  · simp_all
  · simp_all
  · rename_i r1 heq
    rw [List.cons.injEq] at heq
    exact absurd heq.2 (word_prefix_append_single rest '\\' (by decide)
      (fun r2 hr => hword r2 heq.1 hr) r1)
  · rename_i heq
    rw [List.cons.injEq] at heq
    obtain ⟨hce, hre⟩ := heq
    subst hce
    subst hre
    rw [ih]

/-- C8: the translation equations of the spec hold —
`translate("\\(foo\\)") = "(foo)"`, `translate("(foo)") = "\\(foo\\)"`,
translating a backslash-backquote gives `\A`, and
`translate("[[:word:]]") = "[a-zA-Z]"` — and for every input, appending a
trailing backslash (one that escapes nothing, there being nothing after
it) appends a literal backslash to the output. -/
theorem lisp_regex_translation :
    lisp_regex_to_rust "\\(foo\\)".toList = "(foo)".toList
    ∧ lisp_regex_to_rust "(foo)".toList = "\\(foo\\)".toList
    ∧ lisp_regex_to_rust ['\\', '\x60'] = "\\A".toList
    ∧ lisp_regex_to_rust "[[:word:]]".toList = "[a-zA-Z]".toList
    ∧ ∀ cs : List Char,
        lisp_regex_to_rust (cs ++ ['\\']) = lisp_regex_to_rust cs ++ ['\\'] :=
  ⟨by decide, by decide, by decide, by decide, lisp_regex_trailing_backslash⟩

/-- Projection lemma: the table component of the instrumented `remhashG`
is exactly `remhash`. -/
theorem remhashG_fst (k : Obj) (t : HTable) : (remhashG k t).1 = remhash k t := by
  unfold remhashG remhash
  cases h : t.entries.findIdx? (fun e => e.1 == k) <;> simp [h]

/-- Single-removal step of the cursor invariant: a `remhash` keeps the
cursor within bounds, preserves (up to permutation) the multiset of
not-yet-visited entries together with the removed-unvisited entry it may
emit, only shrinks the visited prefix, and does not increase the number of
entries left to visit. -/
theorem remhashG_inv (k : Obj) (t t' : HTable) (e? : Option (Obj × Obj))
    (heq : remhashG k t = (t', e?)) (hc : t.cursor ≤ t.entries.length) :
    t'.cursor ≤ t'.entries.length
    ∧ (e?.toList ++ t'.entries.drop t'.cursor).Perm (t.entries.drop t.cursor)
    ∧ (∀ e ∈ t'.entries.take t'.cursor, e ∈ t.entries.take t.cursor)
    ∧ t'.entries.length - t'.cursor ≤ t.entries.length - t.cursor := by
  unfold remhashG at heq
  cases hfi : t.entries.findIdx? (fun e => e.1 == k) with
  | none =>
      rw [hfi] at heq
      cases heq
      exact ⟨hc, List.Perm.refl _, fun e he => he, Nat.le_refl _⟩
  | some idx =>
      rw [hfi] at heq
      dsimp only at heq
      obtain ⟨hlt, -, -⟩ := List.findIdx?_eq_some_iff_getElem.mp hfi
      by_cases hic : idx < t.cursor
      · rw [if_pos hic, if_pos hic] at heq
        cases heq
        refine ⟨?_, ?_, ?_, ?_⟩
        · simp only [List.length_eraseIdx_of_lt hlt]
          omega
        · simp only [Option.toList_none, List.nil_append,
            eraseIdx_drop_of_lt t.entries idx t.cursor hic]
          exact List.Perm.refl _
        · intro e he
          rw [eraseIdx_take_of_lt t.entries idx t.cursor hic] at he
          exact (List.eraseIdx_sublist _ idx).mem he
        · simp only [List.length_eraseIdx_of_lt hlt]
          omega
      · rw [if_neg hic, if_neg hic] at heq
        rw [List.get?_eq_getElem?, List.getElem?_eq_getElem hlt] at heq
        cases heq
        have hci : t.cursor ≤ idx := Nat.le_of_not_lt hic
        refine ⟨?_, ?_, ?_, ?_⟩
        · simp only [List.length_eraseIdx_of_lt hlt]
          omega
        · simp only [Option.toList_some, List.singleton_append]
          rw [eraseIdx_drop_of_ge t.entries idx t.cursor hci]
          have hdl : idx - t.cursor < (t.entries.drop t.cursor).length := by
            simp only [List.length_drop]
            omega
          have hperm := perm_getElem_cons_eraseIdx (t.entries.drop t.cursor)
            (idx - t.cursor) hdl
          have hel : (t.entries.drop t.cursor)[idx - t.cursor] = t.entries[idx] := by
            rw [List.getElem_drop]
            congr 1
            omega
          rw [hel] at hperm
          exact hperm.symm
        · intro e he
          rw [eraseIdx_take_of_ge t.entries idx t.cursor hci] at he
          exact he
        · simp only [List.length_eraseIdx_of_lt hlt]
          omega

/-- The single-removal invariant extended over the sequence of `remhash`
calls a callback performs. -/
theorem remhashList_inv (ks : List Obj) :
    ∀ (t : HTable) (r : List (Obj × Obj)) (t2 : HTable) (r2 : List (Obj × Obj)),
      remhashList ks t r = (t2, r2) → t.cursor ≤ t.entries.length →
      t2.cursor ≤ t2.entries.length
      ∧ (r2 ++ t2.entries.drop t2.cursor).Perm (r ++ t.entries.drop t.cursor)
      ∧ (∀ e ∈ t2.entries.take t2.cursor, e ∈ t.entries.take t.cursor)
      ∧ t2.entries.length - t2.cursor ≤ t.entries.length - t.cursor := by
  induction ks with
  | nil =>
      intro t r t2 r2 heq hc
      cases heq
      exact ⟨hc, List.Perm.refl _, fun e he => he, Nat.le_refl _⟩
  | cons k ks ih =>
      intro t r t2 r2 heq hc
      rw [remhashList] at heq
      rcases hG : remhashG k t with ⟨t', e?⟩
      rw [hG] at heq
      obtain ⟨hc', hperm', htake', hlen'⟩ := remhashG_inv k t t' e? hG hc
      obtain ⟨hc2, hperm2, htake2, hlen2⟩ := ih t' (r ++ e?.toList) t2 r2 heq hc'
      refine ⟨hc2, ?_, fun e he => htake' e (htake2 e he), Nat.le_trans hlen2 hlen'⟩
      have e1 : (r2 ++ t2.entries.drop t2.cursor).Perm
          (r ++ (e?.toList ++ t'.entries.drop t'.cursor)) := by
        rw [← List.append_assoc]
        exact hperm2
      exact e1.trans (List.Perm.append_left r hperm')

/-- Loop invariant of `maphash` under a removal-only callback: the run
completes, and the visited entries `vf` together with the
removed-before-visit entries `rf` are exactly (a permutation of) the
accumulators plus the entries not yet visited; every surviving entry was
visited. -/
theorem runMaphash_inv (g : Nat → Obj × Obj → List Obj) :
    ∀ (fuel i : Nat) (t : HTable) (v r : List (Obj × Obj)),
      t.cursor ≤ t.entries.length →
      t.entries.length - t.cursor < fuel →
      (∀ e ∈ t.entries.take t.cursor, e ∈ v) →
      ∃ tf vf rf,
        runMaphash (fun j kv => Except.ok (g j kv)) fuel i t v r
          = some (Except.ok false, tf, vf, rf)
        ∧ (vf ++ rf).Perm (v ++ r ++ t.entries.drop t.cursor)
        ∧ (∀ e ∈ tf.entries, e ∈ vf)
        ∧ tf.cursor = 0 := by
  intro fuel
  induction fuel with
  | zero =>
      intro i t v r hc hf hv
      omega
  | succ fuel ih =>
      intro i t v r hc hf hv
      by_cases hend : t.cursor ≥ t.entries.length
      · refine ⟨⟨t.entries, 0⟩, v, r, ?_, ?_, ?_, rfl⟩
        · simp only [runMaphash, loop_idx, if_pos hend]
        · have hdrop : t.entries.drop t.cursor = [] := List.drop_eq_nil_of_le hend
          rw [hdrop, List.append_nil]
        · intro e he
          apply hv
          rw [List.take_of_length_le hend]
          exact he
      · push_neg at hend
        have hget : t.entries.get? t.cursor = some (t.entries[t.cursor]) := by
          rw [List.get?_eq_getElem?]
          exact List.getElem?_eq_getElem hend
        rcases hfold : remhashList (g i (t.entries[t.cursor]))
            ⟨t.entries, t.cursor + 1⟩ r with ⟨t2, r2⟩
        have hc1 : (HTable.mk t.entries (t.cursor + 1)).cursor
            ≤ (HTable.mk t.entries (t.cursor + 1)).entries.length := by
          simp only []
          omega
        obtain ⟨hc2, hperm2, htake2, hlen2⟩ := remhashList_inv _ _ _ _ _ hfold hc1
        have hf2 : t2.entries.length - t2.cursor < fuel := by
          simp only [] at hlen2
          omega
        have hv2 : ∀ e ∈ t2.entries.take t2.cursor, e ∈ v ++ [t.entries[t.cursor]] := by
          intro e he
          have h1 := htake2 e he
          simp only [] at h1
          rw [List.take_succ, List.getElem?_eq_getElem hend] at h1
          rcases List.mem_append.mp h1 with h | h
          · exact List.mem_append.mpr (Or.inl (hv e h))
          · simp only [Option.toList_some, List.mem_singleton] at h
            subst h
            exact List.mem_append.mpr (Or.inr (List.mem_singleton.mpr rfl))
        obtain ⟨tf, vf, rf, hrun, hperm, hsurv, hcur⟩ :=
          ih (i + 1) t2 (v ++ [t.entries[t.cursor]]) r2 hc2 hf2 hv2
        refine ⟨tf, vf, rf, ?_, ?_, hsurv, hcur⟩
        · simp only [runMaphash, loop_idx, if_neg (not_le.mpr hend)]
          rw [hget]
          dsimp only
          rw [hfold]
          exact hrun
        · have e2 : ((v ++ [t.entries[t.cursor]]) ++ r2 ++ t2.entries.drop t2.cursor).Perm
              ((v ++ [t.entries[t.cursor]]) ++ (r ++ t.entries.drop (t.cursor + 1))) := by
            rw [List.append_assoc]
            exact List.Perm.append_left _ (by simpa using hperm2)
          have e3 : ((v ++ [t.entries[t.cursor]]) ++ (r ++ t.entries.drop (t.cursor + 1))).Perm
              (v ++ (r ++ (t.entries[t.cursor] :: t.entries.drop (t.cursor + 1)))) := by
            rw [List.append_assoc]
            exact List.Perm.append_left v (List.Perm.symm List.perm_middle)
          have e4 : t.entries[t.cursor] :: t.entries.drop (t.cursor + 1)
              = t.entries.drop t.cursor := List.getElem_cons_drop t.entries t.cursor hend
          rw [e4] at e3
          have := (hperm.trans e2).trans e3
          rw [List.append_assoc]
          exact this

/-- C4: cursor invariant of the table iteration.  For any initial table
(keys distinct, traversal starting at cursor 0) and any removal-only
callback `g` (at visit `j` of entry `kv` it removes the keys `g j kv`,
arbitrarily interleaving removals with the traversal), the run completes
and: the keys visited plus the keys removed before their visit form
exactly a permutation of the initial keys — so every entry present at the
start and never removed is visited exactly once (it is in the visited
side, which is duplicate-free), and no entry removed before its visit is
visited (the two sides share no key) — and every entry still in the table
at the end was visited. -/
theorem maphash_cursor_invariant (l0 : List (Obj × Obj))
    (g : Nat → Obj × Obj → List Obj) (hnd : (l0.map Prod.fst).Nodup)
    (fuel : Nat) (hfuel : l0.length < fuel) :
    ∃ tf vf rf,
      runMaphash (fun j kv => Except.ok (g j kv)) fuel 0 ⟨l0, 0⟩ [] []
        = some (Except.ok false, tf, vf, rf)
      ∧ (vf.map Prod.fst ++ rf.map Prod.fst).Perm (l0.map Prod.fst)
      ∧ (vf.map Prod.fst ++ rf.map Prod.fst).Nodup
      ∧ (∀ k ∈ tf.entries.map Prod.fst, k ∈ vf.map Prod.fst) := by
  obtain ⟨tf, vf, rf, hrun, hperm, hsurv, -⟩ :=
    runMaphash_inv g fuel 0 ⟨l0, 0⟩ [] []
      (by simp) (by simpa using hfuel) (by simp)
  have hperm' : (vf ++ rf).Perm l0 := by simpa using hperm
  have hkeys : (vf.map Prod.fst ++ rf.map Prod.fst).Perm (l0.map Prod.fst) := by
    have := hperm'.map Prod.fst
    simpa using this
  refine ⟨tf, vf, rf, hrun, hkeys, hkeys.symm.nodup hnd, ?_⟩
  intro k hk
  obtain ⟨e, he, rfl⟩ := List.mem_map.mp hk
  exact List.mem_map.mpr ⟨e, hsurv e he, rfl⟩

/-- Callback used by the C4 witness: while visiting the first entry,
remove the entry with key 2 (spec scenario 4). -/
def gWit : Nat → Obj × Obj → List Obj :=
  fun i _ => if i = 0 then [Obj.int 2] else []

/-- Witness for `maphash_cursor_invariant`: keys 1,2,3 with key 2 removed
from inside the callback during the first visit: keys 1 and 3 are visited
(3 exactly once), key 2 lands in the removed-unvisited side. -/
theorem maphash_cursor_invariant_witness :
    ([(Obj.int 1, Obj.int 6), (Obj.int 3, Obj.int 10)].map Prod.fst
      ++ [(Obj.int 2, Obj.int 8)].map Prod.fst).Perm
      ([(Obj.int 1, Obj.int 6), (Obj.int 2, Obj.int 8), (Obj.int 3, Obj.int 10)].map Prod.fst)
    ∧ ([(Obj.int 1, Obj.int 6), (Obj.int 3, Obj.int 10)].map Prod.fst
      ++ [(Obj.int 2, Obj.int 8)].map Prod.fst).Nodup := by
  obtain ⟨tf, vf, rf, hrun, hperm, hnodup, hsurv⟩ :=
    maphash_cursor_invariant
      [(Obj.int 1, Obj.int 6), (Obj.int 2, Obj.int 8), (Obj.int 3, Obj.int 10)]
      gWit (by decide) 4 (by decide)
  have hconc : runMaphash (fun j kv => Except.ok (gWit j kv)) 4 0
      ⟨[(Obj.int 1, Obj.int 6), (Obj.int 2, Obj.int 8), (Obj.int 3, Obj.int 10)], 0⟩ [] []
      = some (Except.ok false, ⟨[(Obj.int 1, Obj.int 6), (Obj.int 3, Obj.int 10)], 0⟩,
          [(Obj.int 1, Obj.int 6), (Obj.int 3, Obj.int 10)], [(Obj.int 2, Obj.int 8)]) := rfl
  rw [hconc] at hrun
  simp only [Option.some.injEq, Prod.mk.injEq] at hrun
  obtain ⟨-, htf, hvf, hrf⟩ := hrun
  subst hvf
  subst hrf
  exact ⟨hperm, hnodup⟩

/-- The stateful merge emits every element of both inputs exactly once,
whatever the comparator answers and whatever the fuel. -/
theorem mergeS_perm {α σ : Type} (cmp : σ → α → α → Ordering × σ) :
    ∀ (fuel : Nat) (s : σ) (xs ys : List α),
      ((mergeS cmp fuel s xs ys).1).Perm (xs ++ ys) := by
  intro fuel
  induction fuel with
  | zero =>
      intro s xs ys
      cases xs with
      | nil => simp [mergeS]
      | cons x xs =>
          cases ys with
          | nil => simp [mergeS]
          | cons y ys => simp [mergeS]
  | succ fuel ih =>
      intro s xs ys
      cases xs with
      | nil => simp [mergeS]
      | cons x xs =>
          cases ys with
          | nil => simp [mergeS]
          | cons y ys =>
              simp only [mergeS]
              rcases hc : cmp s x y with ⟨o, s'⟩
              by_cases ho : o = Ordering.gt
              · rw [if_pos ho]
                rcases hm : mergeS cmp fuel s' (x :: xs) ys with ⟨res, s''⟩
                have := ih s' (x :: xs) ys
                rw [hm] at this
                dsimp only
                exact ((this.cons y).trans List.perm_middle.symm)
              · rw [if_neg ho]
                rcases hm : mergeS cmp fuel s' xs (y :: ys) with ⟨res, s''⟩
                have := ih s' xs (y :: ys)
                rw [hm] at this
                dsimp only
                exact this.cons x

/-- The stateful merge sort's output is a permutation of its input for any
comparator, any state and any fuel: the sort pass always runs to
completion over all elements. -/
theorem msortS_perm {α σ : Type} (cmp : σ → α → α → Ordering × σ) :
    ∀ (fuel : Nat) (s : σ) (l : List α), ((msortS cmp fuel s l).1).Perm l := by
  intro fuel
  induction fuel with
  | zero =>
      intro s l
      rcases l with _ | ⟨x, _ | ⟨y, rest⟩⟩ <;> simp [msortS]
  | succ fuel ih =>
      intro s l
      rcases l with _ | ⟨x, _ | ⟨y, rest⟩⟩
      · simp [msortS]
      · simp [msortS]
      · simp only [msortS]
        rcases h1 : msortS cmp fuel s ((x :: y :: rest).take ((x :: y :: rest).length / 2))
          with ⟨ls, s1⟩
        rcases h2 : msortS cmp fuel s1 ((x :: y :: rest).drop ((x :: y :: rest).length / 2))
          with ⟨rs, s2⟩
        have p1 := ih s ((x :: y :: rest).take ((x :: y :: rest).length / 2))
        have p2 := ih s1 ((x :: y :: rest).drop ((x :: y :: rest).length / 2))
        rw [h1] at p1
        rw [h2] at p2
        dsimp only
        have pm := mergeS_perm cmp (ls.length + rs.length) s2 ls rs
        refine pm.trans ?_
        refine (p1.append p2).trans ?_
        rw [List.take_append_drop]

/-- A comparator that never changes the state from `s` leaves the merge's
final state at `s`. -/
theorem mergeS_state_const {α σ : Type} (cmp : σ → α → α → Ordering × σ) (s : σ)
    (hstat : ∀ a b, (cmp s a b).2 = s) :
    ∀ (fuel : Nat) (xs ys : List α), (mergeS cmp fuel s xs ys).2 = s := by
  intro fuel
  induction fuel with
  | zero =>
      intro xs ys
      cases xs with
      | nil => simp [mergeS]
      | cons x xs => cases ys with
        | nil => simp [mergeS]
        | cons y ys => simp [mergeS]
  | succ fuel ih =>
      intro xs ys
      cases xs with
      | nil => simp [mergeS]
      | cons x xs =>
          cases ys with
          | nil => simp [mergeS]
          | cons y ys =>
              simp only [mergeS]
              rcases hc : cmp s x y with ⟨o, s'⟩
              have hs' : s' = s := by
                have := hstat x y
                rw [hc] at this
                exact this
              rw [hs']
              by_cases ho : o = Ordering.gt
              · rw [if_pos ho]
                rcases hm : mergeS cmp fuel s (x :: xs) ys with ⟨res, s''⟩
                have := ih (x :: xs) ys
                rw [hm] at this
                exact this
              · rw [if_neg ho]
                rcases hm : mergeS cmp fuel s xs (y :: ys) with ⟨res, s''⟩
                have := ih xs (y :: ys)
                rw [hm] at this
                exact this

/-- A comparator that never changes the state from `s` leaves the sort's
final state at `s`. -/
theorem msortS_state_const {α σ : Type} (cmp : σ → α → α → Ordering × σ) (s : σ)
    (hstat : ∀ a b, (cmp s a b).2 = s) :
    ∀ (fuel : Nat) (l : List α), (msortS cmp fuel s l).2 = s := by
  intro fuel
  induction fuel with
  | zero =>
      intro l
      rcases l with _ | ⟨x, _ | ⟨y, rest⟩⟩ <;> simp [msortS]
  | succ fuel ih =>
      intro l
      rcases l with _ | ⟨x, _ | ⟨y, rest⟩⟩
      · simp [msortS]
      · simp [msortS]
      · simp only [msortS]
        rcases h1 : msortS cmp fuel s ((x :: y :: rest).take ((x :: y :: rest).length / 2))
          with ⟨ls, s1⟩
        have hs1 : s1 = s := by
          have := ih ((x :: y :: rest).take ((x :: y :: rest).length / 2))
          rw [h1] at this
          exact this
        rw [hs1]
        rcases h2 : msortS cmp fuel s ((x :: y :: rest).drop ((x :: y :: rest).length / 2))
          with ⟨rs, s2⟩
        have hs2 : s2 = s := by
          have := ih ((x :: y :: rest).drop ((x :: y :: rest).length / 2))
          rw [h2] at this
          exact this
        rw [hs2]
        dsimp only
        exact mergeS_state_const cmp s hstat (ls.length + rs.length) ls rs

/-- Merging two `R`-sorted runs yields an `R`-sorted run, provided `R` is
transitive and the comparator's answers are sound for `R` (`Greater` puts
the right element below the left, anything else the left below the
right). -/
theorem mergeS_sorted {α σ : Type} (cmp : σ → α → α → Ordering × σ) (s : σ)
    (R : α → α → Prop)
    (hstat : ∀ a b, (cmp s a b).2 = s)
    (htrans : ∀ a b c, R a b → R b c → R a c)
    (hgt : ∀ a b, (cmp s a b).1 = Ordering.gt → R b a)
    (hngt : ∀ a b, (cmp s a b).1 ≠ Ordering.gt → R a b) :
    ∀ (fuel : Nat) (xs ys : List α), xs.length + ys.length ≤ fuel →
      xs.Pairwise R → ys.Pairwise R →
      ((mergeS cmp fuel s xs ys).1).Pairwise R := by
  intro fuel
  induction fuel with
  | zero =>
      intro xs ys hlen hxs hys
      cases xs with
      | nil => simpa [mergeS] using hys
      | cons x xs =>
          cases ys with
          | nil => simpa [mergeS] using hxs
          | cons y ys => simp at hlen
  | succ fuel ih =>
      intro xs ys hlen hxs hys
      cases xs with
      | nil => simpa [mergeS] using hys
      | cons x xs =>
          cases ys with
          | nil => simpa [mergeS] using hxs
          | cons y ys =>
              simp only [mergeS]
              rcases hc : cmp s x y with ⟨o, s'⟩
              have hs' : s' = s := by
                have := hstat x y
                rw [hc] at this
                exact this
              rw [hs']
              have ho1 : (cmp s x y).1 = o := by rw [hc]
              rw [List.pairwise_cons] at hxs hys
              obtain ⟨hx_below, hxs'⟩ := hxs
              obtain ⟨hy_below, hys'⟩ := hys
              by_cases ho : o = Ordering.gt
              · rw [if_pos ho]
                rcases hm : mergeS cmp fuel s (x :: xs) ys with ⟨res, s''⟩
                have hres := ih (x :: xs) ys (by simp at hlen ⊢; omega)
                  (List.pairwise_cons.mpr ⟨hx_below, hxs'⟩) hys'
                rw [hm] at hres
                dsimp only
                rw [List.pairwise_cons]
                refine ⟨?_, hres⟩
                intro z hz
                have hzmem : z ∈ x :: xs ++ ys := by
                  have hp := mergeS_perm cmp fuel s (x :: xs) ys
                  rw [hm] at hp
                  exact (hp.mem_iff).mp hz
                have hyx : R y x := hgt x y (by rw [ho1]; exact ho)
                rcases List.mem_cons.mp hzmem with rfl | hz2
                · exact hyx
                · rcases List.mem_append.mp hz2 with hz3 | hz3
                  · exact htrans y x z hyx (hx_below z hz3)
                  · exact hy_below z hz3
              · rw [if_neg ho]
                rcases hm : mergeS cmp fuel s xs (y :: ys) with ⟨res, s''⟩
                have hres := ih xs (y :: ys) (by simp at hlen ⊢; omega)
                  hxs' (List.pairwise_cons.mpr ⟨hy_below, hys'⟩)
                rw [hm] at hres
                dsimp only
                rw [List.pairwise_cons]
                refine ⟨?_, hres⟩
                intro z hz
                have hzmem : z ∈ xs ++ y :: ys := by
                  have hp := mergeS_perm cmp fuel s xs (y :: ys)
                  rw [hm] at hp
                  exact (hp.mem_iff).mp hz
                have hxy : R x y := hngt x y (by rw [ho1]; exact ho)
                rcases List.mem_append.mp hzmem with hz3 | hz3
                · exact hx_below z hz3
                · rcases List.mem_cons.mp hz3 with rfl | hz4
                  · exact hxy
                  · exact htrans x y z hxy (hy_below z hz4)

/-- With a state-stationary, `R`-sound comparator and enough fuel, the
merge sort's output is `R`-sorted. -/
theorem msortS_sorted {α σ : Type} (cmp : σ → α → α → Ordering × σ) (s : σ)
    (R : α → α → Prop)
    (hstat : ∀ a b, (cmp s a b).2 = s)
    (htrans : ∀ a b c, R a b → R b c → R a c)
    (hgt : ∀ a b, (cmp s a b).1 = Ordering.gt → R b a)
    (hngt : ∀ a b, (cmp s a b).1 ≠ Ordering.gt → R a b) :
    ∀ (fuel : Nat) (l : List α), l.length ≤ fuel →
      ((msortS cmp fuel s l).1).Pairwise R := by
  intro fuel
  induction fuel with
  | zero =>
      intro l hlen
      have : l = [] := List.length_eq_zero.mp (Nat.le_zero.mp hlen)
      subst this
      simp [msortS]
  | succ fuel ih =>
      intro l hlen
      rcases l with _ | ⟨x, _ | ⟨y, rest⟩⟩
      · simp [msortS]
      · simp [msortS]
      · simp only [msortS]
        rcases h1 : msortS cmp fuel s ((x :: y :: rest).take ((x :: y :: rest).length / 2))
          with ⟨ls, s1⟩
        have hs1 : s1 = s := by
          have := msortS_state_const cmp s hstat fuel
            ((x :: y :: rest).take ((x :: y :: rest).length / 2))
          rw [h1] at this
          exact this
        rw [hs1]
        rcases h2 : msortS cmp fuel s ((x :: y :: rest).drop ((x :: y :: rest).length / 2))
          with ⟨rs, s2⟩
        have hs2 : s2 = s := by
          have := msortS_state_const cmp s hstat fuel
            ((x :: y :: rest).drop ((x :: y :: rest).length / 2))
          rw [h2] at this
          exact this
        rw [hs2]
        dsimp only
        have hp1 := ih ((x :: y :: rest).take ((x :: y :: rest).length / 2))
          (by simp at hlen ⊢; omega)
        have hp2 := ih ((x :: y :: rest).drop ((x :: y :: rest).length / 2))
          (by simp at hlen ⊢; omega)
        rw [h1] at hp1
        rw [h2] at hp2
        exact mergeS_sorted cmp s R hstat htrans hgt hngt (ls.length + rs.length)
          ls rs (Nat.le_refl _) hp1 hp2

/-- The strict order a sort predicate denotes: `pred a b` returned a
non-Nil value, i.e. `a` must sort before `b`. -/
def predTrue (pred : Obj → Obj → Except String Obj) (a b : Obj) : Prop :=
  ∃ v, pred a b = Except.ok v ∧ v ≠ Obj.nil

/-- C5: the error policy of `sort`.  (1) Once the error cell holds an
error, every further comparison answers `Equal` and keeps that (first)
error; (2) in that state the comparator's behaviour does not depend on the
predicate at all — the predicate is not invoked again; (3) the sort pass
nevertheless runs to completion, producing a full permutation of the
buffer whatever errors occur; (4) the captured error is precisely one the
predicate raised when it was first consulted; (5) when the pass ends with
a captured error, `sort` returns that first error instead of a result. -/
theorem sort_error_policy (pred : Obj → Obj → Except String Obj)
    (l : List Obj) (e : String) :
    (∀ a b, sortCmp pred (some e) a b = (Ordering.eq, some e))
    ∧ (∀ (pred2 : Obj → Obj → Except String Obj) (a b : Obj),
        sortCmp pred (some e) a b = sortCmp pred2 (some e) a b)
    ∧ (∀ (fuel : Nat) (s : Option String), ((msortS (sortCmp pred) fuel s l).1).Perm l)
    ∧ (∀ a b, (sortCmp pred none a b).2 = some e → pred a b = Except.error e)
    ∧ (1 < l.length → (msortS (sortCmp pred) l.length none l).2 = some e →
        sort l pred = Except.error e) := by
  refine ⟨fun a b => rfl, fun pred2 a b => rfl,
    fun fuel s => msortS_perm (sortCmp pred) fuel s l, ?_, ?_⟩
  · intro a b h
    unfold sortCmp at h
    cases hp : pred a b with
    | ok x =>
        rw [hp] at h
        simp at h
    | error e2 =>
        rw [hp] at h
        simp at h
        rw [h]
  · intro hlen hrun
    unfold sort
    rw [if_neg (not_le.mpr hlen)]
    rcases hm : msortS (sortCmp pred) l.length none l with ⟨out, st⟩
    rw [hm] at hrun
    dsimp only at hrun
    rw [hrun]

/-- Witness for `sort_error_policy`: sorting a two-element list with an
always-erroring predicate surfaces the error after the completed pass, and
an already-captured error makes the comparator answer `Equal`. -/
theorem sort_error_policy_witness :
    sort [Obj.int 1, Obj.int 2] (fun _ _ => Except.error "boom") = Except.error "boom"
    ∧ sortCmp (fun _ _ => Except.error "boom") (some "boom") Obj.nil Obj.nil
        = (Ordering.eq, some "boom") := by
  have h := sort_error_policy (fun _ _ => Except.error "boom") [Obj.int 1, Obj.int 2] "boom"
  exact ⟨h.2.2.2.2 (by decide) rfl, h.1 Obj.nil Obj.nil⟩

/-- C6: totality of `sort`.  For every finite proper list and every
predicate that always returns a value and whose induced strict order
`predTrue` is a strict weak order (irreflexive, transitive, and
`a < c → a < b ∨ b < c`), `sort` returns a list that is a permutation of
the input and non-decreasing under the predicate: no element strictly
sorts before an earlier one. -/
theorem sort_totality (l : List Obj) (pred : Obj → Obj → Except String Obj)
    (hok : ∀ a b, ∃ v, pred a b = Except.ok v)
    (hirr : ∀ a, ¬ predTrue pred a a)
    (htrans : ∀ a b c, predTrue pred a b → predTrue pred b c → predTrue pred a c)
    (hsplit : ∀ a b c, predTrue pred a c → predTrue pred a b ∨ predTrue pred b c) :
    ∃ out, sort l pred = Except.ok out ∧ out.Perm l
      ∧ out.Pairwise (fun a b => ¬ predTrue pred b a) := by
  by_cases hlen : l.length ≤ 1
  · refine ⟨l, by simp [sort, hlen], List.Perm.refl l, ?_⟩
    rcases l with _ | ⟨x, _ | ⟨y, rest⟩⟩
    · simp
    · simp
    · simp at hlen
  · have hstat : ∀ a b, (sortCmp pred none a b).2 = none := by
      intro a b
      obtain ⟨v, hv⟩ := hok a b
      simp [sortCmp, hv]
    have hRtrans : ∀ a b c : Obj, ¬ predTrue pred b a → ¬ predTrue pred c b →
        ¬ predTrue pred c a := by
      intro a b c hba hcb hca
      rcases hsplit c b a hca with h | h
      · exact hcb h
      · exact hba h
    have hgt : ∀ a b, (sortCmp pred none a b).1 = Ordering.gt → ¬ predTrue pred a b := by
      intro a b hcmp hab
      obtain ⟨v, hv⟩ := hok a b
      simp only [sortCmp, hv] at hcmp
      obtain ⟨w, hw, hwne⟩ := hab
      rw [hv] at hw
      have hvw : v = w := Except.ok.inj hw
      by_cases hnil : v = Obj.nil
      · exact hwne (hvw ▸ hnil)
      · rw [if_neg hnil] at hcmp
        exact Ordering.noConfusion hcmp
    have hngt : ∀ a b, (sortCmp pred none a b).1 ≠ Ordering.gt → ¬ predTrue pred b a := by
      intro a b hcmp hba
      obtain ⟨v, hv⟩ := hok a b
      simp only [sortCmp, hv] at hcmp
      by_cases hnil : v = Obj.nil
      · rw [if_pos hnil] at hcmp
        exact hcmp rfl
      · have hab : predTrue pred a b := ⟨v, hv, hnil⟩
        exact hirr a (htrans a b a hab hba)
    have hsorted := msortS_sorted (sortCmp pred) none
      (fun a b => ¬ predTrue pred b a) hstat
      hRtrans hgt hngt l.length l (Nat.le_refl _)
    have hperm := msortS_perm (sortCmp pred) l.length none l
    have hstate := msortS_state_const (sortCmp pred) none hstat l.length l
    rcases hm : msortS (sortCmp pred) l.length none l with ⟨out, st⟩
    rw [hm] at hsorted hperm hstate
    dsimp only at hsorted hperm hstate
    refine ⟨out, ?_, hperm, hsorted⟩
    unfold sort
    rw [if_neg hlen, hm, hstate]

/-- Witness for `sort_totality` at the one-element list with the
never-true predicate. -/
theorem sort_totality_witness :
    sort [Obj.nil] (fun _ _ => Except.ok Obj.nil) = Except.ok [Obj.nil]
    ∧ [Obj.nil].Pairwise (fun a b => ¬ predTrue (fun _ _ => Except.ok Obj.nil) b a) := by
  have hPF : ∀ a b : Obj, ¬ predTrue (fun _ _ => Except.ok Obj.nil) a b := by
    rintro a b ⟨v, hv, hne⟩
    exact hne (Except.ok.inj hv).symm
  obtain ⟨out, h1, h2, h3⟩ := sort_totality [Obj.nil] (fun _ _ => Except.ok Obj.nil)
    (fun a b => ⟨Obj.nil, rfl⟩) (fun a => hPF a a) (fun a b c h hh => absurd h (hPF a b))
    (fun a b c h => absurd h (hPF a c))
  have hout : out = [Obj.nil] := by
    have hc : sort [Obj.nil] (fun _ _ => Except.ok Obj.nil) = Except.ok [Obj.nil] := rfl
    rw [h1] at hc
    exact Except.ok.inj hc
  subst hout
  exact ⟨h1, h3⟩

end Rune
